import Mathlib

/-!
Verification development for the Tuxedo Touch alarm-panel client
(src/alarm_control_panel.py and src/config_flow.py).

The Python source is shallowly embedded: pure helpers become Lean
functions over byte lists (`List Nat`, each byte below 256); code that
can raise returns `Option` or `Except`; the HTTP transport is an
explicit input (`HttpOutcome`) describing what the network produced;
log lines and timing side effects are returned as explicit lists.

The AES block permutation from pycryptodome is not part of the
repository; it is modelled abstractly as an `AESCore` record holding an
encryption and a decryption function on 16-byte blocks together with
the laws the library guarantees (inversion, length preservation, byte
range preservation).  CBC chaining, PKCS7 padding, base64, hex and
URL-encoding are embedded concretely, following the semantics of the
library functions the source calls (`binascii`, `urllib.parse`,
`Crypto.Util.Padding`, `json`).
-/

/-- Value of one hexadecimal digit given as a byte, accepting upper and
lower case, as `binascii.a2b_hex` and `urllib.parse.unquote` do. -/
def hexVal (b : Nat) : Option Nat :=
  if 48 ≤ b ∧ b ≤ 57 then some (b - 48)
  else if 65 ≤ b ∧ b ≤ 70 then some (b - 55)
  else if 97 ≤ b ∧ b ≤ 102 then some (b - 87)
  else none

/-- Byte of the upper-case hexadecimal digit for a value below 16, as
produced by `urllib.parse.quote`. -/
def hexDigitUpper (n : Nat) : Nat :=
  if n < 10 then 48 + n else 55 + n

/-- Pairs of hex digits to bytes; fails on an odd-length input or a
non-hex digit, as `binascii.a2b_hex` does. -/
def hexPairs : List Char → Option (List Nat)
  | [] => some []
  | [_] => none
  | c1 :: c2 :: t =>
    match hexVal c1.toNat, hexVal c2.toNat with
    | some x, some y =>
      match hexPairs t with
      | some bs => some ((x * 16 + y) :: bs)
      | none => none
    | _, _ => none

/-- Embedding of `binascii.a2b_hex` on a string. -/
def a2b_hex (s : String) : Option (List Nat) :=
  hexPairs s.data

/-- The base64 alphabet in index order. -/
def b64chars : List Char :=
  "ABCDEFGHIJKLMNOPQRSTUVWXYZabcdefghijklmnopqrstuvwxyz0123456789+/".data

/-- Character of a 6-bit value in the base64 alphabet. -/
def b64chr (v : Nat) : Char :=
  b64chars.getD v (Char.ofNat 65)

/-- Index of a character in the base64 alphabet, `none` when the
character is not base64 data. -/
def b64val (c : Char) : Option Nat :=
  b64chars.indexOf? c

/-- Base64 encoding of a byte list, three bytes to four characters with
trailing `=` padding, the core of `binascii.b2a_base64`. -/
def b2aCore : List Nat → List Char
  | b1 :: b2 :: b3 :: t =>
    b64chr (b1 / 4) :: b64chr ((b1 % 4) * 16 + b2 / 16) ::
      b64chr ((b2 % 16) * 4 + b3 / 64) :: b64chr (b3 % 64) :: b2aCore t
  | [b1, b2] =>
    [b64chr (b1 / 4), b64chr ((b1 % 4) * 16 + b2 / 16), b64chr ((b2 % 16) * 4), Char.ofNat 61]
  | [b1] =>
    [b64chr (b1 / 4), b64chr ((b1 % 4) * 16), Char.ofNat 61, Char.ofNat 61]
  | [] => []

/-- Embedding of `binascii.b2a_base64`, which appends a newline to the
encoded text. -/
def b2a_base64 (bs : List Nat) : String :=
  String.mk (b2aCore bs ++ [Char.ofNat 10])

/-- Decoding loop of `binascii.a2b_base64` in its default non-strict
mode: characters outside the alphabet are skipped, a padding character
arriving after at least two data characters of the current quad ends
the data, and an input whose number of data characters is one more
than a multiple of four is rejected.  The state is the position inside
the current quad and the pending bits. -/
def a2bLoop : List Char → Nat → Nat → List Nat → Option (List Nat)
  | [], q, _, acc => if q = 1 then none else some acc.reverse
  | c :: cs, q, bits, acc =>
    match b64val c with
    | some v =>
      match q with
      | 0 => a2bLoop cs 1 v acc
      | 1 => a2bLoop cs 2 (v % 16) ((bits * 4 + v / 16) :: acc)
      | 2 => a2bLoop cs 3 (v % 4) ((bits * 16 + v / 4) :: acc)
      | _ => a2bLoop cs 0 0 ((bits * 64 + v) :: acc)
    | none =>
      if c = Char.ofNat 61 then
        if 2 ≤ q then some acc.reverse else a2bLoop cs q bits acc
      else a2bLoop cs q bits acc

/-- Embedding of `binascii.a2b_base64`. -/
def a2b_base64 (s : String) : Option (List Nat) :=
  a2bLoop s.data 0 0 []

/-- UTF-8 encoding of one character, as `str.encode("UTF-8")` produces
it, written with division and remainder instead of shifts. -/
def utf8EncodeChar (c : Char) : List Nat :=
  let n := c.toNat
  if n < 128 then [n]
  else if n < 2048 then [192 + n / 64, 128 + n % 64]
  else if n < 65536 then [224 + n / 4096, 128 + n / 64 % 64, 128 + n % 64]
  else [240 + n / 262144, 128 + n / 4096 % 64, 128 + n / 64 % 64, 128 + n % 64]

/-- UTF-8 encoding of a string as a byte list. -/
def utf8Encode (s : String) : List Nat :=
  (s.data.map utf8EncodeChar).flatten

/-- Bytes that `urllib.parse.quote_plus` with an empty safe set leaves
untouched: ASCII letters, digits, underscore, dot, dash and tilde. -/
def safeByte (b : Nat) : Bool :=
  (65 ≤ b && b ≤ 90) || (97 ≤ b && b ≤ 122) || (48 ≤ b && b ≤ 57) ||
    b == 95 || b == 46 || b == 45 || b == 126

/-- Percent-encoding of one byte under `quote_plus`: a space becomes a
plus sign, safe bytes stay, everything else becomes a percent escape
with upper-case hex digits. -/
def quoteByte (b : Nat) : List Nat :=
  if b = 32 then [43]
  else if safeByte b then [b]
  else [37, hexDigitUpper (b / 16), hexDigitUpper (b % 16)]

/-- Percent-encoding of a byte list under `quote_plus`. -/
def quoteBytes (l : List Nat) : List Nat :=
  (l.map quoteByte).flatten

/-- Percent-decoding loop, fuel-bounded so that it reduces
definitionally; the fuel never runs out when it starts at the input
length, since every step consumes at least one byte. -/
def unquoteAux : Nat → List Nat → List Nat
  | 0, l => l
  | _ + 1, [] => []
  | fuel + 1, b :: t =>
    if b = 43 then 32 :: unquoteAux fuel t
    else if b = 37 then
      match t with
      | h1 :: h2 :: t2 =>
        match hexVal h1, hexVal h2 with
        | some x, some y => (x * 16 + y) :: unquoteAux fuel t2
        | _, _ => 37 :: unquoteAux fuel t
      | _ => 37 :: unquoteAux fuel t
    else b :: unquoteAux fuel t

/-- Percent-decoding with plus handling, the byte-level core of
`urllib.parse.unquote_plus`: a plus becomes a space, a percent followed
by two hex digits becomes that byte, and a percent not followed by two
hex digits is kept literally. -/
def unquoteBytes (l : List Nat) : List Nat :=
  unquoteAux l.length l

/-- One `key=value` piece of `urllib.parse.urlencode` output, at byte
level: the quoted UTF-8 key, an equals sign, the quoted UTF-8 value. -/
def quotePair (k v : String) : List Nat :=
  quoteBytes (utf8Encode k) ++ 61 :: quoteBytes (utf8Encode v)

/-- Joining pieces with an ampersand, as `"&".flatten` does. -/
def joinAmp : List (List Nat) → List Nat
  | [] => []
  | [p] => p
  | p :: ps => p ++ 38 :: joinAmp ps

/-- Embedding of `urllib.parse.urlencode` on an ordered parameter
list, followed by `str.encode("UTF-8")`: the serialized byte form the
source encrypts in `Cipher.encrypt_params`. -/
def urlencodeBytes (params : List (String × String)) : List Nat :=
  joinAmp (params.map (fun p => quotePair p.1 p.2))

/-- Splitting a byte list on a separator byte, as `str.split` does. -/
def splitOnByte (sep : Nat) : List Nat → List (List Nat)
  | [] => [[]]
  | b :: t =>
    if b = sep then [] :: splitOnByte sep t
    else
      match splitOnByte sep t with
      | [] => [[b]]
      | h :: r => (b :: h) :: r

/-- Splitting at the first equals sign, `none` when there is none. -/
def splitFirstEq : List Nat → Option (List Nat × List Nat)
  | [] => none
  | b :: t =>
    if b = 61 then some ([], t)
    else
      match splitFirstEq t with
      | none => none
      | some (k, v) => some (b :: k, v)

/-- Modelled from the spec: re-parsing the URL-encoded form (the
repository never parses it back; its decoder JSON-parses instead).
Pieces are split on ampersands, each piece splits at its first equals
sign, and both sides are percent-decoded; empty pieces and pieces with
no equals sign are skipped, blank values are kept. -/
def parseQsl (l : List Nat) : List (List Nat × List Nat) :=
  (splitOnByte 38 l).filterMap (fun piece =>
    if piece = [] then none
    else
      match splitFirstEq piece with
      | none => none
      | some (k, v) => some (unquoteBytes k, unquoteBytes v))

/-- PKCS7 padding to 16-byte blocks, `Crypto.Util.Padding.pad` with
block size 16: a full block of padding when already aligned. -/
def pad16 (bs : List Nat) : List Nat :=
  bs ++ List.replicate (16 - bs.length % 16) (16 - bs.length % 16)

/-- PKCS7 padding removal, `Crypto.Util.Padding.unpad` with block size
16: fails on unaligned input, on an out-of-range final byte and on
inconsistent padding bytes. -/
def unpad16 (bs : List Nat) : Option (List Nat) :=
  if bs.length % 16 = 0 then
    match bs.getLast? with
    | none => none
    | some p =>
      if 1 ≤ p ∧ p ≤ 16 ∧ p ≤ bs.length then
        if bs.drop (bs.length - p) = List.replicate p p then some (bs.take (bs.length - p))
        else none
      else none
  else none

/-- Bytewise exclusive or of two blocks. -/
def xorB (a b : List Nat) : List Nat :=
  List.zipWith (fun x y => x ^^^ y) a b

/-- Abstract AES block permutation, standing in for the pycryptodome
primitive the source calls through `AES.new`: an encryption and a
decryption function on 16-byte blocks for a given key, with the laws
the library guarantees and that the CBC layer relies on. -/
structure AESCore where
  encBlock : List Nat → List Nat → List Nat
  decBlock : List Nat → List Nat → List Nat
  enc_length : ∀ k b, b.length = 16 → (encBlock k b).length = 16
  dec_length : ∀ k b, b.length = 16 → (decBlock k b).length = 16
  dec_enc : ∀ k b, b.length = 16 → decBlock k (encBlock k b) = b
  enc_bytes : ∀ k b, (∀ x ∈ b, x < 256) → ∀ x ∈ encBlock k b, x < 256

/-- Identity instance of the abstract block permutation, used to
evaluate the embedding on concrete inputs. -/
def idCore : AESCore where
  encBlock := fun _ b => b
  decBlock := fun _ b => b
  enc_length := fun _ _ h => h
  dec_length := fun _ _ h => h
  dec_enc := fun _ _ _ => rfl
  enc_bytes := fun _ _ h => h

/-- Chunking loop, fuel-bounded so that it reduces definitionally; the
fuel never runs out when it starts at the input length, since every
step consumes at least one byte. -/
def chunkBlocksAux : Nat → List Nat → List (List Nat)
  | _, [] => []
  | 0, _ :: _ => []
  | fuel + 1, b :: t => (b :: t).take 16 :: chunkBlocksAux fuel ((b :: t).drop 16)

/-- Splitting a byte list into 16-byte chunks. -/
def chunkBlocks (l : List Nat) : List (List Nat) :=
  chunkBlocksAux l.length l

/-- CBC encryption over block lists: each plaintext block is xored
with the previous ciphertext block (initially the iv) and sent through
the block permutation. -/
def cbcEncBlocks (core : AESCore) (key : List Nat) : List Nat → List (List Nat) → List (List Nat)
  | _, [] => []
  | prev, b :: bs =>
    let cblk := core.encBlock key (xorB b prev)
    cblk :: cbcEncBlocks core key cblk bs

/-- CBC decryption over block lists. -/
def cbcDecBlocks (core : AESCore) (key : List Nat) : List Nat → List (List Nat) → List (List Nat)
  | _, [] => []
  | prev, cblk :: cs =>
    xorB (core.decBlock key cblk) prev :: cbcDecBlocks core key cblk cs

/-- Embedding of `Cipher`: the binary key and iv obtained in
`Cipher.__init__` by hex-decoding the constructor arguments. -/
structure Cipher where
  key_bin : List Nat
  iv_bin : List Nat
deriving DecidableEq

/-- Embedding of `Cipher.__init__` (src/alarm_control_panel.py lines
37-40): the key and iv strings are hex-decoded and stored; nothing
else is checked, so construction fails only when `binascii.a2b_hex`
fails. -/
def Cipher.init (key iv : String) : Option Cipher :=
  match a2b_hex key, a2b_hex iv with
  | some kb, some ib => some ⟨kb, ib⟩
  | _, _ => none

/-- Validity check that `AES.new(key, AES.MODE_CBC, iv)` performs when
`encrypt_params` or `decrypt_params` runs: the key must be 16, 24 or
32 bytes and the iv 16 bytes, otherwise it raises. -/
def aesNewOk (c : Cipher) : Bool :=
  (c.key_bin.length == 16 || c.key_bin.length == 24 || c.key_bin.length == 32) &&
    c.iv_bin.length == 16

/-- CBC encryption of a byte list under a cipher configuration. -/
def cbcEncBytes (core : AESCore) (c : Cipher) (pt : List Nat) : List Nat :=
  (cbcEncBlocks core c.key_bin c.iv_bin (chunkBlocks pt)).flatten

/-- CBC decryption of a byte list under a cipher configuration. -/
def cbcDecBytes (core : AESCore) (c : Cipher) (ct : List Nat) : List Nat :=
  (cbcDecBlocks core c.key_bin c.iv_bin (chunkBlocks ct)).flatten

/-- Failure cases of the codec layer; the spec groups all of them
under its `MalformedCiphertext` error (plus `keyIv` for the ValueError
`AES.new` raises on bad key material). -/
inductive CodecErr
  | keyIv
  | base64
  | alignment
  | padding
  | parse
deriving DecidableEq

/-- Embedding of `Cipher.encrypt_params` (lines 42-50): URL-encode the
parameters, pad, CBC-encrypt, base64-encode.  `AES.new` raises when
the key or iv length is invalid, which surfaces as an error here. -/
def encrypt_params (core : AESCore) (c : Cipher) (params : List (String × String)) :
    Except CodecErr String :=
  if aesNewOk c then
    .ok (b2a_base64 (cbcEncBytes core c (pad16 (urlencodeBytes params))))
  else .error .keyIv

/-- Byte stages of `Cipher.decrypt_params` (lines 52-58) before JSON
parsing: base64-decode, check CBC block alignment, CBC-decrypt, strip
padding. -/
def decryptRaw (core : AESCore) (c : Cipher) (blob : String) : Except CodecErr (List Nat) :=
  if aesNewOk c then
    match a2b_base64 blob with
    | none => .error .base64
    | some ct =>
      if ct.length % 16 = 0 then
        match unpad16 (cbcDecBytes core c ct) with
        | some pt => .ok pt
        | none => .error .padding
      else .error .alignment
  else .error .keyIv

/-- JSON documents as `json.loads` builds them; numbers keep their
lexeme. -/
inductive Json
  | jnull
  | jbool (b : Bool)
  | jnum (lex : String)
  | jstr (s : String)
  | jarr (xs : List Json)
  | jobj (fields : List (String × Json))

/-- JSON whitespace bytes. -/
def isWs (b : Nat) : Bool :=
  b == 32 || b == 9 || b == 10 || b == 13

/-- Dropping leading JSON whitespace. -/
def skipWs : List Nat → List Nat
  | [] => []
  | b :: t => if isWs b then skipWs t else b :: t

/-- JSON string literal body: collects characters after the opening
quote up to the closing quote, handling the escape sequences of
`json.loads` and rejecting raw control bytes as strict mode does. -/
def parseJStrGo : List Nat → List Char → Option (String × List Nat)
  | [], _ => none
  | b :: t, acc =>
    if b = 34 then some (String.mk acc.reverse, t)
    else if b = 92 then
      match t with
      | [] => none
      | e :: t2 =>
        if e = 34 then parseJStrGo t2 (Char.ofNat 34 :: acc)
        else if e = 92 then parseJStrGo t2 (Char.ofNat 92 :: acc)
        else if e = 47 then parseJStrGo t2 (Char.ofNat 47 :: acc)
        else if e = 98 then parseJStrGo t2 (Char.ofNat 8 :: acc)
        else if e = 102 then parseJStrGo t2 (Char.ofNat 12 :: acc)
        else if e = 110 then parseJStrGo t2 (Char.ofNat 10 :: acc)
        else if e = 114 then parseJStrGo t2 (Char.ofNat 13 :: acc)
        else if e = 116 then parseJStrGo t2 (Char.ofNat 9 :: acc)
        else if e = 117 then
          match t2 with
          | h1 :: h2 :: h3 :: h4 :: t3 =>
            match hexVal h1, hexVal h2, hexVal h3, hexVal h4 with
            | some x1, some x2, some x3, some x4 =>
              parseJStrGo t3 (Char.ofNat (((x1 * 16 + x2) * 16 + x3) * 16 + x4) :: acc)
            | _, _, _, _ => none
          | _ => none
        else none
    else if b < 32 then none
    else parseJStrGo t (Char.ofNat b :: acc)

/-- Decimal digit bytes. -/
def digitByte (b : Nat) : Bool :=
  48 ≤ b && b ≤ 57

/-- JSON number lexeme after an optional minus sign: integer part with
no leading zero, optional fraction, optional exponent.  Returns the
lexeme bytes and the rest. -/
def parseNumBody (l : List Nat) : Option (List Nat × List Nat) :=
  match l with
  | [] => none
  | b :: t =>
    if b = 48 then
      some ([48], t)
    else if 49 ≤ b ∧ b ≤ 57 then
      some (b :: t.takeWhile digitByte, t.dropWhile digitByte)
    else none

/-- Optional fraction part of a JSON number. -/
def parseFrac (l : List Nat) : Option (List Nat × List Nat) :=
  match l with
  | 46 :: t =>
    match t.takeWhile digitByte with
    | [] => none
    | ds => some (46 :: ds, t.dropWhile digitByte)
  | _ => some ([], l)

/-- Optional exponent part of a JSON number. -/
def parseExp (l : List Nat) : Option (List Nat × List Nat) :=
  match l with
  | e :: t =>
    if e = 101 ∨ e = 69 then
      match t with
      | s :: t2 =>
        if s = 43 ∨ s = 45 then
          match t2.takeWhile digitByte with
          | [] => none
          | ds => some (e :: s :: ds, t2.dropWhile digitByte)
        else
          match t.takeWhile digitByte with
          | [] => none
          | ds => some (e :: ds, t.dropWhile digitByte)
      | [] => none
    else some ([], l)
  | [] => some ([], l)

/-- JSON number: sign, body, fraction, exponent, producing the lexeme
kept in the document. -/
def parseNum (l : List Nat) : Option (Json × List Nat) :=
  let signAndRest : List Nat × List Nat :=
    match l with
    | 45 :: t => ([45], t)
    | _ => ([], l)
  match parseNumBody signAndRest.2 with
  | none => none
  | some (ip, r1) =>
    match parseFrac r1 with
    | none => none
    | some (fp, r2) =>
      match parseExp r2 with
      | none => none
      | some (ep, r3) =>
        some (.jnum (String.mk ((signAndRest.1 ++ ip ++ fp ++ ep).map Char.ofNat)), r3)

mutual

/-- Fuel-bounded JSON value parse over bytes, following the grammar
`json.loads` accepts for documents the panel exchanges. -/
def parseVal : Nat → List Nat → Option (Json × List Nat)
  | 0, _ => none
  | fuel + 1, l =>
    match skipWs l with
    | [] => none
    | b :: t =>
      if b = 110 then
        match t with
        | 117 :: 108 :: 108 :: r => some (Json.jnull, r)
        | _ => none
      else if b = 116 then
        match t with
        | 114 :: 117 :: 101 :: r => some (Json.jbool true, r)
        | _ => none
      else if b = 102 then
        match t with
        | 97 :: 108 :: 115 :: 101 :: r => some (Json.jbool false, r)
        | _ => none
      else if b = 34 then
        match parseJStrGo t [] with
        | some (s, r) => some (Json.jstr s, r)
        | none => none
      else if b = 123 then
        match skipWs t with
        | 125 :: r => some (Json.jobj [], r)
        | t2 => parseObjFields fuel t2 []
      else if b = 91 then
        match skipWs t with
        | 93 :: r => some (Json.jarr [], r)
        | t2 => parseArrItems fuel t2 []
      else if digitByte b || b == 45 then parseNum (b :: t)
      else none

/-- Fuel-bounded parse of the members of a JSON object after the
opening brace. -/
def parseObjFields : Nat → List Nat → List (String × Json) → Option (Json × List Nat)
  | 0, _, _ => none
  | fuel + 1, l, acc =>
    match skipWs l with
    | 34 :: t =>
      match parseJStrGo t [] with
      | some (k, r) =>
        match skipWs r with
        | 58 :: r2 =>
          match parseVal fuel r2 with
          | some (v, r3) =>
            match skipWs r3 with
            | 44 :: r4 => parseObjFields fuel r4 ((k, v) :: acc)
            | 125 :: r4 => some (Json.jobj ((k, v) :: acc).reverse, r4)
            | _ => none
          | none => none
        | _ => none
      | none => none
    | _ => none

/-- Fuel-bounded parse of the items of a JSON array after the opening
bracket. -/
def parseArrItems : Nat → List Nat → List Json → Option (Json × List Nat)
  | 0, _, _ => none
  | fuel + 1, l, acc =>
    match parseVal fuel l with
    | some (v, r) =>
      match skipWs r with
      | 44 :: r2 => parseArrItems fuel r2 (v :: acc)
      | 93 :: r2 => some (Json.jarr (v :: acc).reverse, r2)
      | _ => none
    | none => none

end

/-- Embedding of `json.loads` on bytes: one value, then only trailing
whitespace. -/
def jsonParse (l : List Nat) : Option Json :=
  match parseVal (l.length + 1) l with
  | some (j, rest) => if skipWs rest = [] then some j else none
  | none => none

/-- Truthiness of a number lexeme: zero exactly when the mantissa has
no nonzero digit. -/
def numTruthy (lex : String) : Bool :=
  (lex.data.takeWhile (fun c => c != Char.ofNat 101 && c != Char.ofNat 69)).any
    (fun c => 49 ≤ c.toNat && c.toNat ≤ 57)

/-- Python truthiness of a decoded JSON value, used by the source's
`if response:` tests. -/
def Json.truthy : Json → Bool
  | .jnull => false
  | .jbool b => b
  | .jnum lex => numTruthy lex
  | .jstr s => s ≠ ""
  | .jarr xs => !xs.isEmpty
  | .jobj fs => !fs.isEmpty

/-- Dictionary lookup with the last duplicate winning, matching how
`json.loads` builds a `dict`. -/
def jobjLookup (fs : List (String × Json)) (k : String) : Option Json :=
  List.lookup k fs.reverse

/-- Embedding of `Cipher.decrypt_params` (lines 52-58): the byte
stages followed by `json.loads`. -/
def decrypt_params (core : AESCore) (c : Cipher) (blob : String) : Except CodecErr Json :=
  match decryptRaw core c blob with
  | .error e => .error e
  | .ok pt =>
    match jsonParse pt with
    | some j => .ok j
    | none => .error .parse

/-- Closed set of alarm states the controller reports. -/
inductive AlarmState
  | disarmed
  | armedAway
  | armedHome
  | armedNight
  | arming
  | unavailable
deriving DecidableEq

/-- Embedding of `str.endswith`. -/
def pyEndsWith (s suffix : String) : Bool :=
  List.isSuffixOf suffix.data s.data

/-- Status interpretation from `TuxedoTouch.async_update` (lines
119-139): the ordered string tests of the source, with the final
coalescing of an unset state to the unavailable state. -/
def interpretStatus (status : String) : AlarmState :=
  if status = "Armed Away" then .armedAway
  else if status = "Armed Instant" then .armedNight
  else if status = "Armed Stay" then .armedHome
  else if status = "Ready To Arm" then .disarmed
  else if pyEndsWith status " Secs Remaining" then .arming
  else .unavailable

/-- Python values an entry code can take in the source: `None`, an
integer from the config entry, or a caller-supplied string. -/
inductive PyCode
  | pyNone
  | pyInt (n : Int)
  | pyStr (s : String)
deriving DecidableEq

/-- Python truthiness of a code value. -/
def PyCode.truthy : PyCode → Bool
  | .pyNone => false
  | .pyInt n => n ≠ 0
  | .pyStr s => s ≠ ""

/-- Python `str()` of a code value. -/
def PyCode.toPyString : PyCode → String
  | .pyNone => "None"
  | .pyInt n => toString n
  | .pyStr s => s

/-- What the network produced for one `requests.post` call: an HTTP
response with a status code and a body, or a connection-level failure
(refused, timeout, DNS), which `requests` raises as an exception. -/
inductive HttpOutcome
  | resp (status : Nat) (body : String)
  | connError

/-- Python exceptions that can escape the embedded functions.  The
`httpStatus` constructor is the typed transport error the spec
describes; the source never raises it. -/
inductive PyError
  | valueError
  | connectionError
  | jsonDecodeError
  | keyError
  | typeError
  | attributeError
  | codec (e : CodecErr)
  | httpStatus (n : Nat)
deriving DecidableEq

/-- Log lines the embedded functions emit, keeping the data the
source interpolates into its messages. -/
inductive LogEntry
  | httpError (endpoint : String) (status : Nat)
  | updateFailed
  | statusInfo (s : String)
  | armCodeMissing
  | disarmCodeMissing
  | armResult (name : String)
  | disarmResult
deriving DecidableEq

/-- Timing and scheduling side effects of the arm and disarm paths. -/
inductive PanelAction
  | sleepSecs (n : Nat)
  | scheduleUpdate
deriving DecidableEq

/-- Outcome of an arm or disarm call as its caller observes it:
an early local return for a missing code, a silent return when the
response was absent or falsy, or an acknowledged command. -/
inductive ArmOutcome
  | missingCode
  | noop
  | acknowledged
deriving DecidableEq

/-- Embedding of `TuxedoTouch._post_request` (lines 98-111): encrypt
the parameters, send, and on a 200 response decode the `Result` field
of the JSON envelope; on any other status log the code and return
`None`.  Exceptions raised by encryption, by the connection, or by
envelope handling and decryption propagate. -/
def post_request (core : AESCore) (c : Cipher) (endpoint : String)
    (params : List (String × String)) (outcome : HttpOutcome) :
    Except PyError (Option Json) × List LogEntry :=
  match encrypt_params core c params with
  | .error _ => (.error .valueError, [])
  | .ok _ =>
    match outcome with
    | .connError => (.error .connectionError, [])
    | .resp status body =>
      if status = 200 then
        match jsonParse (utf8Encode body) with
        | none => (.error .jsonDecodeError, [])
        | some (Json.jobj fs) =>
          match jobjLookup fs "Result" with
          | some (Json.jstr blob) =>
            match decrypt_params core c blob with
            | .error e => (.error (.codec e), [])
            | .ok j => (.ok (some j), [])
          | some _ => (.error .typeError, [])
          | none => (.error .keyError, [])
        | some _ => (.error .typeError, [])
      else (.ok none, [.httpError endpoint status])

/-- Embedding of `TuxedoTouch.async_update` (lines 113-139): poll the
status endpoint; a truthy response has its `Status` field interpreted,
anything falsy degrades to the unavailable state with a diagnostic;
exceptions from the request propagate. -/
def async_update (core : AESCore) (c : Cipher) (outcome : HttpOutcome) :
    Except PyError AlarmState × List LogEntry :=
  match post_request core c "/GetSecurityStatus" [("operation", "get")] outcome with
  | (.error e, logs) => (.error e, logs)
  | (.ok none, logs) => (.ok .unavailable, logs ++ [.updateFailed])
  | (.ok (some j), logs) =>
    if j.truthy then
      match j with
      | .jobj fs =>
        match jobjLookup fs "Status" with
        | some (.jstr s) => (.ok (interpretStatus s), logs ++ [.statusInfo s])
        | some _ => (.error .attributeError, logs)
        | none => (.error .keyError, logs)
      | _ => (.error .typeError, logs)
    else (.ok .unavailable, logs ++ [.updateFailed])

/-- Code resolution and request construction of `TuxedoTouch._alarm_arm`
(lines 141-156): the call-supplied code is used when truthy, otherwise
the configured default; when the resolved code is `None` the call
returns early and no request is built. -/
def armDecision (armName : String) (code dcode : PyCode) : Option (List (String × String)) :=
  let armCode := if code.truthy then code else dcode
  if armCode = .pyNone then none
  else some [("arming", armName), ("pID", "1"), ("ucode", armCode.toPyString), ("operation", "set")]

/-- Code resolution and request construction of
`TuxedoTouch.async_alarm_disarm` (lines 175-190), with no `arming`
field. -/
def disarmDecision (code dcode : PyCode) : Option (List (String × String)) :=
  let dCode := if code.truthy then code else dcode
  if dCode = .pyNone then none
  else some [("pID", "1"), ("ucode", dCode.toPyString), ("operation", "set")]

/-- Embedding of `TuxedoTouch._alarm_arm` (lines 141-161): resolve the
code or return early, post the arm request, and on a truthy response
log, sleep two seconds, then schedule a state refresh. -/
def alarm_arm (core : AESCore) (c : Cipher) (armName : String) (code dcode : PyCode)
    (outcome : HttpOutcome) : Except PyError ArmOutcome × List LogEntry × List PanelAction :=
  match armDecision armName code dcode with
  | none => (.ok .missingCode, [.armCodeMissing], [])
  | some ps =>
    match post_request core c "/AdvancedSecurity/ArmWithCode" ps outcome with
    | (.error e, logs) => (.error e, logs, [])
    | (.ok none, logs) => (.ok .noop, logs, [])
    | (.ok (some j), logs) =>
      if j.truthy then
        (.ok .acknowledged, logs ++ [.armResult armName], [.sleepSecs 2, .scheduleUpdate])
      else (.ok .noop, logs, [])

/-- Embedding of `TuxedoTouch.async_alarm_disarm` (lines 175-195). -/
def async_alarm_disarm (core : AESCore) (c : Cipher) (code dcode : PyCode)
    (outcome : HttpOutcome) : Except PyError ArmOutcome × List LogEntry × List PanelAction :=
  match disarmDecision code dcode with
  | none => (.ok .missingCode, [.disarmCodeMissing], [])
  | some ps =>
    match post_request core c "/AdvancedSecurity/DisarmWithCode" ps outcome with
    | (.error e, logs) => (.error e, logs, [])
    | (.ok none, logs) => (.ok .noop, logs, [])
    | (.ok (some j), logs) =>
      if j.truthy then
        (.ok .acknowledged, logs ++ [.disarmResult], [.sleepSecs 2, .scheduleUpdate])
      else (.ok .noop, logs, [])

/-- Concrete cipher configuration with a 32-byte zero key and a
16-byte zero iv, used for concrete evaluations. -/
def zeroCipher : Cipher :=
  ⟨List.replicate 32 0, List.replicate 16 0⟩

/-- Concrete HTTP 200 response body whose `Result` field decrypts,
under `idCore` and `zeroCipher`, to a truthy JSON object: a peer
acknowledgment for a successful arm or disarm command. -/
def ackBody : String :=
  "\x7b\"Result\":\"" ++
    String.mk (b2aCore (cbcEncBytes idCore zeroCipher (pad16 (utf8Encode "\x7b\"R\":\"y\"\x7d")))) ++
    "\"\x7d"

/-! Helper lemmas: base64 -/

theorem b64val_b64chr : ∀ v < 64, b64val (b64chr v) = some v := by decide

theorem b64val_newline : b64val (Char.ofNat 10) = none := by decide

theorem b64val_eqChar : b64val (Char.ofNat 61) = none := by decide

theorem newline_ne_eqChar : Char.ofNat 10 ≠ Char.ofNat 61 := by decide

theorem a2bLoop_d0 (c : Char) (v : Nat) (hv : b64val c = some v) (cs : List Char)
    (bits : Nat) (acc : List Nat) :
    a2bLoop (c :: cs) 0 bits acc = a2bLoop cs 1 v acc := by
  simp [a2bLoop, hv]

theorem a2bLoop_d1 (c : Char) (v : Nat) (hv : b64val c = some v) (cs : List Char)
    (bits : Nat) (acc : List Nat) :
    a2bLoop (c :: cs) 1 bits acc = a2bLoop cs 2 (v % 16) ((bits * 4 + v / 16) :: acc) := by
  simp [a2bLoop, hv]

theorem a2bLoop_d2 (c : Char) (v : Nat) (hv : b64val c = some v) (cs : List Char)
    (bits : Nat) (acc : List Nat) :
    a2bLoop (c :: cs) 2 bits acc = a2bLoop cs 3 (v % 4) ((bits * 16 + v / 4) :: acc) := by
  simp [a2bLoop, hv]

theorem a2bLoop_d3 (c : Char) (v : Nat) (hv : b64val c = some v) (cs : List Char)
    (bits : Nat) (acc : List Nat) :
    a2bLoop (c :: cs) 3 bits acc = a2bLoop cs 0 0 ((bits * 64 + v) :: acc) := by
  simp [a2bLoop, hv]

theorem a2bLoop_pad (cs : List Char) (q bits : Nat) (acc : List Nat) (hq : 2 ≤ q) :
    a2bLoop (Char.ofNat 61 :: cs) q bits acc = some acc.reverse := by
  simp [a2bLoop, b64val_eqChar, hq]

theorem a2bLoop_newline_nil (q bits : Nat) (acc : List Nat) (hq : q ≠ 1) :
    a2bLoop [Char.ofNat 10] q bits acc = some acc.reverse := by
  simp [a2bLoop, b64val_newline, newline_ne_eqChar, hq]

theorem a2bLoop_b2aCore : ∀ (n : Nat) (bs : List Nat), bs.length ≤ n → (∀ b ∈ bs, b < 256) →
    ∀ acc, a2bLoop (b2aCore bs ++ [Char.ofNat 10]) 0 0 acc = some (acc.reverse ++ bs) := by
  intro n
  induction n with
  | zero =>
    intro bs hlen _ acc
    have : bs = [] := List.eq_nil_of_length_eq_zero (Nat.le_zero.mp hlen)
    subst this
    simpa [b2aCore] using a2bLoop_newline_nil 0 0 acc (by omega)
  | succ m ih =>
    intro bs hlen hb acc
    rcases bs with _ | ⟨b1, _ | ⟨b2, _ | ⟨b3, t⟩⟩⟩
    · simpa [b2aCore] using a2bLoop_newline_nil 0 0 acc (by omega)
    · have h1 : b1 < 256 := hb b1 (by simp)
      simp only [b2aCore, List.cons_append, List.nil_append]
      rw [a2bLoop_d0 _ _ (b64val_b64chr _ (by omega))]
      rw [a2bLoop_d1 _ _ (b64val_b64chr _ (by omega))]
      have e1 : b1 / 4 * 4 + (b1 % 4) * 16 / 16 = b1 := by omega
      have e2 : (b1 % 4) * 16 % 16 = 0 := by omega
      rw [e1, e2, a2bLoop_pad _ _ _ _ (by omega)]
      simp
    · have h1 : b1 < 256 := hb b1 (by simp)
      have h2 : b2 < 256 := hb b2 (by simp)
      simp only [b2aCore, List.cons_append, List.nil_append]
      rw [a2bLoop_d0 _ _ (b64val_b64chr _ (by omega))]
      rw [a2bLoop_d1 _ _ (b64val_b64chr _ (by omega))]
      have e1 : b1 / 4 * 4 + ((b1 % 4) * 16 + b2 / 16) / 16 = b1 := by omega
      have e2 : ((b1 % 4) * 16 + b2 / 16) % 16 = b2 / 16 := by omega
      rw [e1, e2]
      rw [a2bLoop_d2 _ _ (b64val_b64chr _ (by omega))]
      have e3 : b2 / 16 * 16 + (b2 % 16) * 4 / 4 = b2 := by omega
      rw [e3, a2bLoop_pad _ _ _ _ (by omega)]
      simp
    · have h1 : b1 < 256 := hb b1 (by simp)
      have h2 : b2 < 256 := hb b2 (by simp)
      have h3 : b3 < 256 := hb b3 (by simp)
      simp only [b2aCore, List.cons_append]
      rw [a2bLoop_d0 _ _ (b64val_b64chr _ (by omega))]
      rw [a2bLoop_d1 _ _ (b64val_b64chr _ (by omega))]
      have e1 : b1 / 4 * 4 + ((b1 % 4) * 16 + b2 / 16) / 16 = b1 := by omega
      have e2 : ((b1 % 4) * 16 + b2 / 16) % 16 = b2 / 16 := by omega
      rw [e1, e2]
      rw [a2bLoop_d2 _ _ (b64val_b64chr _ (by omega))]
      have e3 : b2 / 16 * 16 + ((b2 % 16) * 4 + b3 / 64) / 4 = b2 := by omega
      have e4 : ((b2 % 16) * 4 + b3 / 64) % 4 = b3 / 64 := by omega
      rw [e3, e4]
      rw [a2bLoop_d3 _ _ (b64val_b64chr _ (by omega))]
      have e5 : b3 / 64 * 64 + b3 % 64 = b3 := by omega
      rw [e5]
      have ht : t.length ≤ m := by simp at hlen; omega
      rw [ih t ht (fun b hbm => hb b (by simp [hbm])) (b3 :: b2 :: b1 :: acc)]
      simp

theorem a2b_b2a (bs : List Nat) (hb : ∀ b ∈ bs, b < 256) :
    a2b_base64 (b2a_base64 bs) = some bs := by
  have h := a2bLoop_b2aCore bs.length bs le_rfl hb []
  simpa [a2b_base64, b2a_base64] using h

/-! Helper lemmas: chunking and CBC -/

theorem chunkBlocksAux_congr : ∀ (f1 f2 : Nat) (l : List Nat), l.length ≤ f1 → l.length ≤ f2 →
    chunkBlocksAux f1 l = chunkBlocksAux f2 l := by
  intro f1
  induction f1 with
  | zero =>
    intro f2 l h1 _
    have : l = [] := List.eq_nil_of_length_eq_zero (Nat.le_zero.mp h1)
    subst this
    cases f2 <;> rfl
  | succ m ih =>
    intro f2 l h1 h2
    cases l with
    | nil => cases f2 <;> rfl
    | cons b t =>
      cases f2 with
      | zero => simp at h2
      | succ m2 =>
        simp only [chunkBlocksAux]
        congr 1
        apply ih
        · simp only [List.length_drop, List.length_cons] at *; omega
        · simp only [List.length_drop, List.length_cons] at *; omega

theorem chunkBlocks_cons (l : List Nat) (h : l ≠ []) :
    chunkBlocks l = l.take 16 :: chunkBlocks (l.drop 16) := by
  obtain ⟨b, t, rfl⟩ := List.exists_cons_of_ne_nil h
  show chunkBlocksAux (b :: t).length (b :: t) = _
  simp only [List.length_cons, chunkBlocksAux]
  congr 1
  apply chunkBlocksAux_congr
  · simp only [List.length_drop, List.length_cons]; omega
  · exact le_rfl

theorem join_chunkBlocks : ∀ (n : Nat) (l : List Nat), l.length ≤ n →
    (chunkBlocks l).flatten = l := by
  intro n
  induction n with
  | zero =>
    intro l h
    have : l = [] := List.eq_nil_of_length_eq_zero (Nat.le_zero.mp h)
    subst this; rfl
  | succ m ih =>
    intro l h
    by_cases hl : l = []
    · subst hl; rfl
    · rw [chunkBlocks_cons l hl]
      have hpos : 0 < l.length := List.length_pos.mpr hl
      simp only [List.flatten_cons]
      rw [ih (l.drop 16) (by simp only [List.length_drop]; omega)]
      exact List.take_append_drop 16 l

theorem chunkBlocks_length16 : ∀ (n : Nat) (l : List Nat), l.length ≤ n → l.length % 16 = 0 →
    ∀ b ∈ chunkBlocks l, b.length = 16 := by
  intro n
  induction n with
  | zero =>
    intro l h _ b hb
    have : l = [] := List.eq_nil_of_length_eq_zero (Nat.le_zero.mp h)
    subst this; simp [chunkBlocks, chunkBlocksAux] at hb
  | succ m ih =>
    intro l h hmod b hb
    by_cases hl : l = []
    · subst hl; simp [chunkBlocks, chunkBlocksAux] at hb
    · have hpos : 0 < l.length := List.length_pos.mpr hl
      have h16 : 16 ≤ l.length := by omega
      rw [chunkBlocks_cons l hl] at hb
      rcases List.mem_cons.mp hb with rfl | hb2
      · simp only [List.length_take]; omega
      · exact ih (l.drop 16) (by simp only [List.length_drop]; omega)
          (by simp only [List.length_drop]; omega) b hb2

theorem chunkBlocks_mem_mem : ∀ (n : Nat) (l : List Nat), l.length ≤ n →
    ∀ b ∈ chunkBlocks l, ∀ x ∈ b, x ∈ l := by
  intro n
  induction n with
  | zero =>
    intro l h b hb
    have : l = [] := List.eq_nil_of_length_eq_zero (Nat.le_zero.mp h)
    subst this; simp [chunkBlocks, chunkBlocksAux] at hb
  | succ m ih =>
    intro l h b hb x hx
    by_cases hl : l = []
    · subst hl; simp [chunkBlocks, chunkBlocksAux] at hb
    · have hpos : 0 < l.length := List.length_pos.mpr hl
      rw [chunkBlocks_cons l hl] at hb
      rcases List.mem_cons.mp hb with rfl | hb2
      · exact List.take_subset 16 l hx
      · exact List.drop_subset 16 l
          (ih (l.drop 16) (by simp only [List.length_drop]; omega) b hb2 x hx)

theorem chunkBlocks_join16 : ∀ bls : List (List Nat), (∀ b ∈ bls, b.length = 16) →
    chunkBlocks bls.flatten = bls := by
  intro bls
  induction bls with
  | nil => intro _; rfl
  | cons b rest ih =>
    intro h
    have hb : b.length = 16 := h b (by simp)
    have hne : (b :: rest).flatten ≠ [] := by
      simp only [List.flatten_cons]
      intro hcontra
      have := List.append_eq_nil.mp hcontra
      have : b.length = 0 := by rw [this.1]; rfl
      omega
    rw [chunkBlocks_cons _ hne]
    simp only [List.flatten_cons]
    congr 1
    · rw [← hb, List.take_left]
    · rw [← hb, List.drop_left]
      exact ih (fun x hx => h x (by simp [hx]))

theorem join16_mod : ∀ bls : List (List Nat), (∀ b ∈ bls, b.length = 16) →
    bls.flatten.length % 16 = 0 := by
  intro bls
  induction bls with
  | nil => intro _; rfl
  | cons b rest ih =>
    intro h
    have hb : b.length = 16 := h b (by simp)
    have hr := ih (fun x hx => h x (by simp [hx]))
    simp only [List.flatten_cons, List.length_append, hb]
    omega

theorem xorB_length (a b : List Nat) : (xorB a b).length = min a.length b.length := by
  simp [xorB]

theorem xorB_xorB : ∀ (a b : List Nat), a.length = b.length → xorB (xorB a b) b = a := by
  intro a
  induction a with
  | nil => intro b _; simp [xorB]
  | cons x t ih =>
    intro b h
    cases b with
    | nil => simp at h
    | cons y u =>
      have htail : xorB (xorB t u) u = t := ih u (by simpa using h)
      simp only [xorB, List.zipWith_cons_cons] at htail ⊢
      rw [Nat.xor_cancel_right, htail]

theorem xorB_lt : ∀ (a b : List Nat), (∀ x ∈ a, x < 256) → (∀ x ∈ b, x < 256) →
    ∀ x ∈ xorB a b, x < 256 := by
  intro a
  induction a with
  | nil => intro b _ _ x hx; simp [xorB] at hx
  | cons v t ih =>
    intro b ha hb x hx
    cases b with
    | nil => simp [xorB] at hx
    | cons w u =>
      simp only [xorB, List.zipWith_cons_cons, List.mem_cons] at hx
      rcases hx with rfl | hx2
      · have h1 : v < 2 ^ 8 := by have := ha v (by simp); omega
        have h2 : w < 2 ^ 8 := by have := hb w (by simp); omega
        have := Nat.xor_lt_two_pow h1 h2
        omega
      · exact ih u (fun y hy => ha y (by simp [hy])) (fun y hy => hb y (by simp [hy])) x hx2

theorem cbcDec_cbcEnc (core : AESCore) (key : List Nat) :
    ∀ (bls : List (List Nat)) (prev : List Nat), (∀ b ∈ bls, b.length = 16) →
      prev.length = 16 →
      cbcDecBlocks core key prev (cbcEncBlocks core key prev bls) = bls := by
  intro bls
  induction bls with
  | nil => intro prev _ _; rfl
  | cons b rest ih =>
    intro prev h hprev
    have hb : b.length = 16 := h b (by simp)
    have hxlen : (xorB b prev).length = 16 := by rw [xorB_length, hb, hprev]; rfl
    have hclen : (core.encBlock key (xorB b prev)).length = 16 := core.enc_length _ _ hxlen
    simp only [cbcEncBlocks, cbcDecBlocks]
    rw [core.dec_enc _ _ hxlen, xorB_xorB b prev (by omega)]
    rw [ih _ (fun x hx => h x (by simp [hx])) hclen]

theorem cbcEnc_len_lt (core : AESCore) (key : List Nat) :
    ∀ (bls : List (List Nat)) (prev : List Nat),
      (∀ b ∈ bls, b.length = 16 ∧ ∀ x ∈ b, x < 256) →
      prev.length = 16 → (∀ x ∈ prev, x < 256) →
      ∀ cb ∈ cbcEncBlocks core key prev bls, cb.length = 16 ∧ ∀ x ∈ cb, x < 256 := by
  intro bls
  induction bls with
  | nil => intro prev _ _ _ cb hcb; simp [cbcEncBlocks] at hcb
  | cons b rest ih =>
    intro prev h hprev hprevb cb hcb
    have hb := h b (by simp)
    have hxlen : (xorB b prev).length = 16 := by rw [xorB_length, hb.1, hprev]; rfl
    have hxlt : ∀ x ∈ xorB b prev, x < 256 := xorB_lt b prev hb.2 hprevb
    have hclen : (core.encBlock key (xorB b prev)).length = 16 := core.enc_length _ _ hxlen
    have hclt : ∀ x ∈ core.encBlock key (xorB b prev), x < 256 :=
      core.enc_bytes _ _ hxlt
    simp only [cbcEncBlocks, List.mem_cons] at hcb
    rcases hcb with rfl | hcb2
    · exact ⟨hclen, hclt⟩
    · exact ih _ (fun x hx => h x (by simp [hx])) hclen hclt cb hcb2

/-! Helper lemmas: padding -/

theorem pad16_mod (bs : List Nat) : (pad16 bs).length % 16 = 0 := by
  simp only [pad16, List.length_append, List.length_replicate]
  omega

theorem pad16_lt (bs : List Nat) (h : ∀ x ∈ bs, x < 256) : ∀ x ∈ pad16 bs, x < 256 := by
  intro x hx
  rcases List.mem_append.mp hx with hx1 | hx2
  · exact h x hx1
  · have := List.eq_of_mem_replicate hx2
    omega

theorem getLast?_replicate_pos : ∀ (n : Nat) (a : Nat), 0 < n →
    (List.replicate n a).getLast? = some a := by
  intro n
  induction n with
  | zero => intro a h; omega
  | succ m ih =>
    intro a _
    cases m with
    | zero => rfl
    | succ k =>
      rw [List.replicate_succ, List.replicate_succ, List.getLast?_cons_cons,
        ← List.replicate_succ]
      exact ih a (by omega)

theorem unpad16_pad16 (bs : List Nat) : unpad16 (pad16 bs) = some bs := by
  have hr : bs.length % 16 < 16 := Nat.mod_lt _ (by norm_num)
  have hmod := pad16_mod bs
  have hlen : (pad16 bs).length = bs.length + (16 - bs.length % 16) := by
    simp [pad16]
  have hgl : (pad16 bs).getLast? = some (16 - bs.length % 16) := by
    unfold pad16
    rw [List.getLast?_append_of_ne_nil _ (by
      intro hcontra
      have := congrArg List.length hcontra
      simp only [List.length_replicate, List.length_nil] at this
      omega)]
    exact getLast?_replicate_pos _ _ (by omega)
  have hdrop : (pad16 bs).drop ((pad16 bs).length - (16 - bs.length % 16)) =
      List.replicate (16 - bs.length % 16) (16 - bs.length % 16) := by
    have he : (pad16 bs).length - (16 - bs.length % 16) = bs.length := by omega
    rw [he]
    unfold pad16
    exact List.drop_left bs _
  have htake : (pad16 bs).take ((pad16 bs).length - (16 - bs.length % 16)) = bs := by
    have he : (pad16 bs).length - (16 - bs.length % 16) = bs.length := by omega
    rw [he]
    unfold pad16
    exact List.take_left bs _
  simp only [unpad16, hmod, if_pos, hgl]
  rw [if_pos (by omega : 1 ≤ 16 - bs.length % 16 ∧ 16 - bs.length % 16 ≤ 16 ∧
    16 - bs.length % 16 ≤ (pad16 bs).length)]
  rw [if_pos hdrop, htake]

theorem cbcEncBytes_spec (core : AESCore) (c : Cipher) (pt : List Nat)
    (hiv : c.iv_bin.length = 16) (hivb : ∀ x ∈ c.iv_bin, x < 256)
    (hpt : pt.length % 16 = 0) (hptb : ∀ x ∈ pt, x < 256) :
    cbcDecBytes core c (cbcEncBytes core c pt) = pt ∧
      (cbcEncBytes core c pt).length % 16 = 0 ∧
      ∀ x ∈ cbcEncBytes core c pt, x < 256 := by
  have hbl : ∀ b ∈ chunkBlocks pt, b.length = 16 :=
    chunkBlocks_length16 pt.length pt le_rfl hpt
  have hbb : ∀ b ∈ chunkBlocks pt, ∀ x ∈ b, x < 256 := fun b hb x hx =>
    hptb x (chunkBlocks_mem_mem pt.length pt le_rfl b hb x hx)
  have hencp := cbcEnc_len_lt core c.key_bin (chunkBlocks pt) c.iv_bin
    (fun b hb => ⟨hbl b hb, hbb b hb⟩) hiv hivb
  have hchunk : chunkBlocks (cbcEncBlocks core c.key_bin c.iv_bin (chunkBlocks pt)).flatten
      = cbcEncBlocks core c.key_bin c.iv_bin (chunkBlocks pt) :=
    chunkBlocks_join16 _ (fun b hb => (hencp b hb).1)
  refine ⟨?_, ?_, ?_⟩
  · unfold cbcDecBytes cbcEncBytes
    rw [hchunk, cbcDec_cbcEnc core c.key_bin (chunkBlocks pt) c.iv_bin hbl hiv]
    exact join_chunkBlocks pt.length pt le_rfl
  · exact join16_mod _ (fun b hb => (hencp b hb).1)
  · intro x hx
    unfold cbcEncBytes at hx
    obtain ⟨b, hb, hxb⟩ := List.mem_flatten.mp hx
    exact (hencp b hb).2 x hxb

/-! Helper lemmas: percent-encoding -/

theorem hexVal_hexDigitUpper : ∀ n < 16, hexVal (hexDigitUpper n) = some n := by decide

theorem safeByte_ne (b : Nat) (h : safeByte b = true) :
    b ≠ 43 ∧ b ≠ 37 ∧ b ≠ 38 ∧ b ≠ 61 ∧ b < 256 := by
  simp only [safeByte, Bool.or_eq_true, Bool.and_eq_true, decide_eq_true_eq,
    beq_iff_eq] at h
  omega

theorem unquoteAux_nil : ∀ f : Nat, unquoteAux f [] = [] := by
  intro f
  cases f <;> rfl

theorem unquoteAux_congr : ∀ (f1 f2 : Nat) (l : List Nat), l.length ≤ f1 → l.length ≤ f2 →
    unquoteAux f1 l = unquoteAux f2 l := by
  intro f1
  induction f1 with
  | zero =>
    intro f2 l h1 _
    have : l = [] := List.eq_nil_of_length_eq_zero (Nat.le_zero.mp h1)
    subst this
    cases f2 <;> rfl
  | succ m ih =>
    intro f2 l h1 h2
    cases l with
    | nil => cases f2 <;> rfl
    | cons b t =>
      cases f2 with
      | zero => simp at h2
      | succ m2 =>
        have hlt : t.length ≤ m := by simp at h1; omega
        have hlt2 : t.length ≤ m2 := by simp at h2; omega
        simp only [unquoteAux]
        by_cases hb43 : b = 43
        · simp only [if_pos hb43, ih m2 t hlt hlt2]
        · simp only [if_neg hb43]
          by_cases hb37 : b = 37
          · simp only [if_pos hb37]
            rcases t with _ | ⟨x1, _ | ⟨x2, t2⟩⟩
            · simp [unquoteAux_nil]
            · simp only [ih m2 [x1] hlt hlt2]
            · have ht2 : t2.length ≤ m := by simp at hlt; omega
              have ht2b : t2.length ≤ m2 := by simp at hlt2; omega
              rcases hx1 : hexVal x1 with _ | v1 <;> rcases hx2 : hexVal x2 with _ | v2 <;>
                simp only [hx1, hx2, ih m2 (x1 :: x2 :: t2) hlt hlt2,
                  ih m2 t2 ht2 ht2b]
          · simp only [if_neg hb37, ih m2 t hlt hlt2]

theorem unquoteBytes_cons43 (t : List Nat) : unquoteBytes (43 :: t) = 32 :: unquoteBytes t := by
  show unquoteAux (t.length + 1) (43 :: t) = _
  simp [unquoteAux, unquoteBytes]

theorem unquoteBytes_safe (b : Nat) (t : List Nat) (h43 : b ≠ 43) (h37 : b ≠ 37) :
    unquoteBytes (b :: t) = b :: unquoteBytes t := by
  show unquoteAux (t.length + 1) (b :: t) = _
  simp only [unquoteAux, if_neg h43, if_neg h37]
  rfl

theorem unquoteBytes_esc (b : Nat) (t : List Nat) (hb : b < 256) :
    unquoteBytes (37 :: hexDigitUpper (b / 16) :: hexDigitUpper (b % 16) :: t) =
      b :: unquoteBytes t := by
  show unquoteAux (t.length + 3) _ = _
  simp only [unquoteAux, hexVal_hexDigitUpper (b / 16) (by omega),
    hexVal_hexDigitUpper (b % 16) (by omega)]
  have h37 : (37 : Nat) ≠ 43 := by omega
  simp only [if_neg h37, if_pos rfl]
  have he : b / 16 * 16 + b % 16 = b := by omega
  rw [he]
  have := unquoteAux_congr (t.length + 2) t.length t (by omega) le_rfl
  rw [this]
  rfl

theorem quoteBytes_cons (b : Nat) (l : List Nat) :
    quoteBytes (b :: l) = quoteByte b ++ quoteBytes l := by
  simp [quoteBytes]

theorem unquote_quote : ∀ (l : List Nat), (∀ b ∈ l, b < 256) →
    unquoteBytes (quoteBytes l) = l := by
  intro l
  induction l with
  | nil => intro _; rfl
  | cons b t ih =>
    intro h
    have hb : b < 256 := h b (by simp)
    have ht : ∀ x ∈ t, x < 256 := fun x hx => h x (List.mem_cons_of_mem _ hx)
    rw [quoteBytes_cons]
    by_cases h32 : b = 32
    · subst h32
      rw [show quoteByte 32 = [43] from rfl]
      simp only [List.cons_append, List.nil_append]
      rw [unquoteBytes_cons43, ih ht]
    · by_cases hsafe : safeByte b = true
      · have hne := safeByte_ne b hsafe
        simp only [quoteByte, if_neg h32, if_pos hsafe, List.cons_append, List.nil_append]
        rw [unquoteBytes_safe b _ hne.1 hne.2.1, ih ht]
      · simp only [quoteByte, if_neg h32, if_neg hsafe, List.cons_append, List.nil_append]
        rw [unquoteBytes_esc b _ hb, ih ht]

theorem hexDigitUpper_range (n : Nat) (h : n < 16) :
    (48 ≤ hexDigitUpper n ∧ hexDigitUpper n ≤ 57) ∨
      (65 ≤ hexDigitUpper n ∧ hexDigitUpper n ≤ 70) := by
  unfold hexDigitUpper
  split <;> omega

theorem quoteByte_lt (b : Nat) (hb : b < 256) : ∀ x ∈ quoteByte b, x < 256 := by
  intro x hx
  unfold quoteByte at hx
  split at hx
  · simp at hx; omega
  · split at hx
    · simp at hx; omega
    · simp at hx
      have h1 := hexDigitUpper_range (b / 16) (by omega)
      have h2 := hexDigitUpper_range (b % 16) (by omega)
      rcases hx with rfl | rfl | rfl <;> omega

theorem quoteByte_ne_sep (b : Nat) (hb : b < 256) :
    ∀ x ∈ quoteByte b, x ≠ 38 ∧ x ≠ 61 := by
  intro x hx
  unfold quoteByte at hx
  split at hx
  · simp at hx; omega
  · rename_i h32
    split at hx
    · rename_i hsafe
      have := safeByte_ne b hsafe
      simp at hx
      omega
    · simp at hx
      have h1 := hexDigitUpper_range (b / 16) (by omega)
      have h2 := hexDigitUpper_range (b % 16) (by omega)
      rcases hx with rfl | rfl | rfl <;> omega

theorem quoteBytes_ne_sep (l : List Nat) (hl : ∀ b ∈ l, b < 256) :
    ∀ x ∈ quoteBytes l, x ≠ 38 ∧ x ≠ 61 := by
  intro x hx
  unfold quoteBytes at hx
  obtain ⟨bl, hbl, hxb⟩ := List.mem_flatten.mp hx
  obtain ⟨b, hbmem, rfl⟩ := List.mem_map.mp hbl
  exact quoteByte_ne_sep b (hl b hbmem) x hxb

theorem quoteBytes_lt (l : List Nat) (hl : ∀ b ∈ l, b < 256) :
    ∀ x ∈ quoteBytes l, x < 256 := by
  intro x hx
  unfold quoteBytes at hx
  obtain ⟨bl, hbl, hxb⟩ := List.mem_flatten.mp hx
  obtain ⟨b, hbmem, rfl⟩ := List.mem_map.mp hbl
  exact quoteByte_lt b (hl b hbmem) x hxb

/-! Helper lemmas: UTF-8 -/

theorem char_toNat_lt (c : Char) : c.toNat < 1114112 := by
  show c.val.toNat < 1114112
  rcases c.valid with h | h
  · omega
  · omega

theorem utf8EncodeChar_lt (c : Char) : ∀ b ∈ utf8EncodeChar c, b < 256 := by
  intro b hb
  have hc := char_toNat_lt c
  simp only [utf8EncodeChar] at hb
  split at hb
  · simp at hb; omega
  · split at hb
    · simp at hb; omega
    · split at hb
      · simp at hb; omega
      · simp at hb; omega

theorem utf8Encode_lt (s : String) : ∀ b ∈ utf8Encode s, b < 256 := by
  intro b hb
  unfold utf8Encode at hb
  obtain ⟨bl, hbl, hbb⟩ := List.mem_flatten.mp hb
  obtain ⟨c, _, rfl⟩ := List.mem_map.mp hbl
  exact utf8EncodeChar_lt c b hbb

/-! Helper lemmas: splitting the URL-encoded form -/

theorem splitOnByte_no_sep : ∀ (p : List Nat) (sep : Nat), sep ∉ p →
    splitOnByte sep p = [p] := by
  intro p
  induction p with
  | nil => intro sep _; rfl
  | cons b t ih =>
    intro sep h
    have hb : b ≠ sep := fun he => h (by simp [he])
    have ht : sep ∉ t := fun hx => h (by simp [hx])
    simp only [splitOnByte, if_neg hb, ih sep ht]

theorem splitOnByte_append (sep : Nat) : ∀ (p r : List Nat), sep ∉ p →
    splitOnByte sep (p ++ sep :: r) = p :: splitOnByte sep r := by
  intro p
  induction p with
  | nil =>
    intro r _
    simp [splitOnByte]
  | cons b t ih =>
    intro r h
    have hb : b ≠ sep := fun he => h (by simp [he])
    have ht : sep ∉ t := fun hx => h (by simp [hx])
    simp only [List.cons_append, splitOnByte, if_neg hb, List.append_eq]
    rw [ih r ht]

theorem splitFirstEq_append : ∀ (k v : List Nat), 61 ∉ k →
    splitFirstEq (k ++ 61 :: v) = some (k, v) := by
  intro k
  induction k with
  | nil => intro v _; simp [splitFirstEq]
  | cons b t ih =>
    intro v h
    have hb : b ≠ 61 := fun he => h (by simp [he])
    have ht : 61 ∉ t := fun hx => h (by simp [hx])
    simp only [List.cons_append, splitFirstEq, if_neg hb, List.append_eq]
    rw [ih v ht]

theorem quotePair_ne_nil (k v : String) : quotePair k v ≠ [] := by
  intro h
  have := congrArg List.length h
  simp [quotePair] at this

theorem quotePair_no_amp (k v : String) : 38 ∉ quotePair k v := by
  intro h
  rcases List.mem_append.mp h with h1 | h2
  · exact (quoteBytes_ne_sep _ (utf8Encode_lt k) 38 h1).1 rfl
  · rcases List.mem_cons.mp h2 with h3 | h4
    · omega
    · exact (quoteBytes_ne_sep _ (utf8Encode_lt v) 38 h4).1 rfl

theorem splitFirstEq_quotePair (k v : String) :
    splitFirstEq (quotePair k v) =
      some (quoteBytes (utf8Encode k), quoteBytes (utf8Encode v)) :=
  splitFirstEq_append _ _ (fun hx => (quoteBytes_ne_sep _ (utf8Encode_lt k) 61 hx).2 rfl)

theorem parseQsl_piece (k v : String) :
    (if quotePair k v = [] then none
     else
       match splitFirstEq (quotePair k v) with
       | none => none
       | some (a, b) => some (unquoteBytes a, unquoteBytes b)) =
      some (utf8Encode k, utf8Encode v) := by
  rw [if_neg (quotePair_ne_nil k v), splitFirstEq_quotePair]
  show some (unquoteBytes (quoteBytes (utf8Encode k)), unquoteBytes (quoteBytes (utf8Encode v)))
      = some (utf8Encode k, utf8Encode v)
  rw [unquote_quote _ (utf8Encode_lt k), unquote_quote _ (utf8Encode_lt v)]

theorem parseQsl_urlencode (params : List (String × String)) :
    parseQsl (urlencodeBytes params) =
      params.map (fun p => (utf8Encode p.1, utf8Encode p.2)) := by
  induction params with
  | nil => rfl
  | cons p rest ih =>
    cases rest with
    | nil =>
      show parseQsl (joinAmp [quotePair p.1 p.2]) = [(utf8Encode p.1, utf8Encode p.2)]
      unfold parseQsl
      rw [show joinAmp [quotePair p.1 p.2] = quotePair p.1 p.2 from rfl]
      rw [splitOnByte_no_sep _ 38 (quotePair_no_amp p.1 p.2)]
      simp only [List.filterMap_cons, List.filterMap_nil]
      simp only [parseQsl_piece p.1 p.2]
    | cons p2 rest2 =>
      have hjoin : urlencodeBytes (p :: p2 :: rest2) =
          quotePair p.1 p.2 ++ 38 :: urlencodeBytes (p2 :: rest2) := by
        simp [urlencodeBytes, joinAmp]
      unfold parseQsl
      rw [hjoin, splitOnByte_append 38 _ _ (quotePair_no_amp p.1 p.2)]
      simp only [List.filterMap_cons]
      simp only [parseQsl_piece p.1 p.2]
      unfold parseQsl at ih
      rw [ih]
      rfl

theorem joinAmp_lt : ∀ (ps : List (List Nat)), (∀ p ∈ ps, ∀ x ∈ p, x < 256) →
    ∀ x ∈ joinAmp ps, x < 256 := by
  intro ps
  induction ps with
  | nil => intro _ x hx; simp [joinAmp] at hx
  | cons p rest ih =>
    intro h x hx
    cases rest with
    | nil => exact h p (by simp) x hx
    | cons p2 rest2 =>
      rw [show joinAmp (p :: p2 :: rest2) = p ++ 38 :: joinAmp (p2 :: rest2) from rfl] at hx
      rcases List.mem_append.mp hx with h1 | h2
      · exact h p (by simp) x h1
      · rcases List.mem_cons.mp h2 with rfl | h3
        · omega
        · exact ih (fun q hq => h q (by simp [hq])) x h3

theorem quotePair_lt (k v : String) : ∀ x ∈ quotePair k v, x < 256 := by
  intro x hx
  rcases List.mem_append.mp hx with h1 | h2
  · exact quoteBytes_lt _ (utf8Encode_lt k) x h1
  · rcases List.mem_cons.mp h2 with rfl | h3
    · omega
    · exact quoteBytes_lt _ (utf8Encode_lt v) x h3

theorem urlencodeBytes_lt (params : List (String × String)) :
    ∀ x ∈ urlencodeBytes params, x < 256 := by
  unfold urlencodeBytes
  apply joinAmp_lt
  intro p hp
  obtain ⟨q, _, rfl⟩ := List.mem_map.mp hp
  exact quotePair_lt q.1 q.2

/-! Claim theorems -/

/-- C1, amended.  Decrypting the blob produced by `encrypt_params`
recovers exactly the URL-encoded serialization of the parameter set,
and re-parsing that URL-encoded form yields the original parameters
(as UTF-8 key/value byte pairs).  The implemented `decrypt_params`
itself does not complete the round trip because it parses the
plaintext as JSON rather than as an URL-encoded form; the
counterexample theorem exhibits this on a concrete parameter set. -/
theorem c1_encode_decode_roundtrip (core : AESCore) (c : Cipher)
    (params : List (String × String))
    (hk : c.key_bin.length = 32) (hiv : c.iv_bin.length = 16)
    (hivb : ∀ x ∈ c.iv_bin, x < 256) :
    ∃ blob, encrypt_params core c params = .ok blob ∧
      decryptRaw core c blob = .ok (urlencodeBytes params) ∧
      parseQsl (urlencodeBytes params) =
        params.map (fun p => (utf8Encode p.1, utf8Encode p.2)) := by
  have haes : aesNewOk c = true := by simp [aesNewOk, hk, hiv]
  have hptmod : (pad16 (urlencodeBytes params)).length % 16 = 0 := pad16_mod _
  have hptb : ∀ x ∈ pad16 (urlencodeBytes params), x < 256 :=
    pad16_lt _ (urlencodeBytes_lt params)
  obtain ⟨hdec, hctmod, hctb⟩ := cbcEncBytes_spec core c _ hiv hivb hptmod hptb
  refine ⟨b2a_base64 (cbcEncBytes core c (pad16 (urlencodeBytes params))), ?_, ?_,
    parseQsl_urlencode params⟩
  · simp [encrypt_params, haes]
  · unfold decryptRaw
    simp only [haes, if_true]
    rw [a2b_b2a _ hctb]
    simp only [hctmod, if_pos]
    rw [hdec, unpad16_pad16]

/-- C1, counterexample.  On the status-poll parameter set, decoding
the encoded blob raises a JSON parse failure rather than returning the
parameter set: `decrypt_params (encrypt_params params)` is an error,
so the claimed equation fails. -/
theorem c1_counterexample :
    ∃ blob, encrypt_params idCore zeroCipher [("operation", "get")] = Except.ok blob ∧
      decrypt_params idCore zeroCipher blob = Except.error CodecErr.parse := by
  refine ⟨b2a_base64 (cbcEncBytes idCore zeroCipher
    (pad16 (urlencodeBytes [("operation", "get")]))), rfl, ?_⟩
  rfl

/-- C1, witness for the amended theorem at the concrete status-poll
parameter set. -/
theorem c1_roundtrip_witness :
    ∃ blob, encrypt_params idCore zeroCipher [("operation", "get")] = .ok blob ∧
      decryptRaw idCore zeroCipher blob = .ok (urlencodeBytes [("operation", "get")]) ∧
      parseQsl (urlencodeBytes [("operation", "get")]) =
        [(("operation" : String), ("get" : String))].map
          (fun p => (utf8Encode p.1, utf8Encode p.2)) :=
  c1_encode_decode_roundtrip idCore zeroCipher [("operation", "get")]
    (by decide) (by decide) (by decide)

/-- C7.  Encoding is deterministic: the encoded blob depends only on
the key bytes, the iv bytes and the parameter set; two cipher
configurations with equal material produce byte-identical output, and
no randomness enters the embedding. -/
theorem c7_encode_deterministic (core : AESCore) (c1 c2 : Cipher)
    (params : List (String × String))
    (hkey : c1.key_bin = c2.key_bin) (hiv : c1.iv_bin = c2.iv_bin) :
    encrypt_params core c1 params = encrypt_params core c2 params := by
  obtain ⟨k1, i1⟩ := c1
  obtain ⟨k2, i2⟩ := c2
  cases hkey
  cases hiv
  rfl

/-- C7, witness at concrete material and parameters. -/
theorem c7_witness :
    encrypt_params idCore zeroCipher [("operation", "get")] =
      encrypt_params idCore ⟨List.replicate 32 0, List.replicate 16 0⟩
        [("operation", "get")] :=
  c7_encode_deterministic idCore zeroCipher ⟨List.replicate 32 0, List.replicate 16 0⟩
    [("operation", "get")] rfl rfl

/-- C6.  Decoding fails with an error (the spec's MalformedCiphertext,
refined by stage) whenever base64 decoding, block alignment, padding
removal, or JSON parsing fails, and succeeds only when every stage
succeeds — never silently returning a default value. -/
theorem c6_decode_fails_on_malformed (core : AESCore) (c : Cipher) (blob : String)
    (hc : aesNewOk c = true) :
    (a2b_base64 blob = none → decrypt_params core c blob = .error CodecErr.base64) ∧
    (∀ ct, a2b_base64 blob = some ct → ct.length % 16 ≠ 0 →
      decrypt_params core c blob = .error CodecErr.alignment) ∧
    (∀ ct, a2b_base64 blob = some ct → ct.length % 16 = 0 →
      unpad16 (cbcDecBytes core c ct) = none →
      decrypt_params core c blob = .error CodecErr.padding) ∧
    (∀ ct pt, a2b_base64 blob = some ct → ct.length % 16 = 0 →
      unpad16 (cbcDecBytes core c ct) = some pt → jsonParse pt = none →
      decrypt_params core c blob = .error CodecErr.parse) ∧
    (∀ j, decrypt_params core c blob = .ok j →
      ∃ ct pt, a2b_base64 blob = some ct ∧ ct.length % 16 = 0 ∧
        unpad16 (cbcDecBytes core c ct) = some pt ∧ jsonParse pt = some j) := by
  refine ⟨?_, ?_, ?_, ?_, ?_⟩
  · intro ha
    unfold decrypt_params decryptRaw
    simp [hc, ha]
  · intro ct ha hmod
    unfold decrypt_params decryptRaw
    simp [hc, ha, hmod]
  · intro ct ha hmod hun
    unfold decrypt_params decryptRaw
    simp [hc, ha, hmod, hun]
  · intro ct pt ha hmod hun hj
    unfold decrypt_params decryptRaw
    simp [hc, ha, hmod, hun, hj]
  · intro j hj
    unfold decrypt_params decryptRaw at hj
    simp only [hc, if_true] at hj
    rcases ha : a2b_base64 blob with _ | ct
    · rw [ha] at hj; simp at hj
    · rw [ha] at hj
      by_cases hmod : ct.length % 16 = 0
      · simp only [hmod, if_pos] at hj
        rcases hun : unpad16 (cbcDecBytes core c ct) with _ | pt
        · simp only [hun] at hj; simp at hj
        · simp only [hun] at hj
          rcases hjp : jsonParse pt with _ | jv
          · simp only [hjp] at hj; simp at hj
          · simp only [hjp] at hj
            simp at hj
            exact ⟨ct, pt, rfl, hmod, hun, by rw [hjp, hj]⟩
      · simp [hmod] at hj

/-- C6, witness.  A blob whose 16 decrypted bytes end in a zero byte
has corrupted PKCS7 padding; decoding it yields the padding error, not
a default value. -/
theorem c6_witness :
    decrypt_params idCore zeroCipher (b2a_base64 (List.replicate 16 0)) =
      Except.error CodecErr.padding :=
  (c6_decode_fails_on_malformed idCore zeroCipher _ (by decide)).2.2.1
    (List.replicate 16 0) (by rfl) (by decide) (by rfl)

/-- C2.  Status interpretation is total: each of the four exact
strings maps to its state, every string ending in the arming suffix
maps to the arming state, and every other string (including the two
documented unhandled statuses) maps to the unavailable state.  The
interpreter is a total Lean function, so no input can make it fail. -/
theorem c2_status_interpretation_total (s : String) :
    interpretStatus "Armed Away" = AlarmState.armedAway ∧
    interpretStatus "Armed Instant" = AlarmState.armedNight ∧
    interpretStatus "Armed Stay" = AlarmState.armedHome ∧
    interpretStatus "Ready To Arm" = AlarmState.disarmed ∧
    (pyEndsWith s " Secs Remaining" = true → interpretStatus s = AlarmState.arming) ∧
    (s ≠ "Armed Away" → s ≠ "Armed Instant" → s ≠ "Armed Stay" → s ≠ "Ready To Arm" →
      pyEndsWith s " Secs Remaining" = false → interpretStatus s = AlarmState.unavailable) ∧
    interpretStatus "Entry Delay Active" = AlarmState.unavailable ∧
    interpretStatus "Not Ready Fault" = AlarmState.unavailable := by
  refine ⟨by decide, by decide, by decide, by decide, ?_, ?_, by decide, by decide⟩
  · intro hsuf
    have h1 : s ≠ "Armed Away" := by rintro rfl; revert hsuf; decide
    have h2 : s ≠ "Armed Instant" := by rintro rfl; revert hsuf; decide
    have h3 : s ≠ "Armed Stay" := by rintro rfl; revert hsuf; decide
    have h4 : s ≠ "Ready To Arm" := by rintro rfl; revert hsuf; decide
    simp [interpretStatus, h1, h2, h3, h4, hsuf]
  · intro h1 h2 h3 h4 h5
    simp [interpretStatus, h1, h2, h3, h4, h5]

/-- C2, witness at a concrete countdown status string. -/
theorem c2_witness :
    pyEndsWith "45 Secs Remaining" " Secs Remaining" = true ∧
    interpretStatus "45 Secs Remaining" = AlarmState.arming :=
  ⟨by decide, (c2_status_interpretation_total "45 Secs Remaining").2.2.2.2.1 (by decide)⟩

/-- C3.  When neither the call-supplied code (tested for truthiness)
nor the configured default resolves, arm and disarm return the missing
code outcome locally, with only a warning log, no side effects, and a
result independent of anything the network would have produced; when
the call-supplied code is truthy it takes precedence: the decision
ignores the configured default and sends the call-supplied code in the
`ucode` field. -/
theorem c3_missing_code_no_network (core : AESCore) (c : Cipher) (armName : String)
    (code dcode : PyCode) (outcome1 outcome2 : HttpOutcome) :
    (code.truthy = false → dcode = PyCode.pyNone →
      armDecision armName code dcode = none ∧
      disarmDecision code dcode = none ∧
      alarm_arm core c armName code dcode outcome1 =
        (Except.ok ArmOutcome.missingCode, [LogEntry.armCodeMissing], []) ∧
      async_alarm_disarm core c code dcode outcome2 =
        (Except.ok ArmOutcome.missingCode, [LogEntry.disarmCodeMissing], [])) ∧
    (code.truthy = true →
      (∀ d2 : PyCode, armDecision armName code d2 = armDecision armName code dcode ∧
        disarmDecision code d2 = disarmDecision code dcode) ∧
      (∃ ps1, armDecision armName code dcode = some ps1 ∧
        ("ucode", code.toPyString) ∈ ps1) ∧
      ∃ ps2, disarmDecision code dcode = some ps2 ∧
        ("ucode", code.toPyString) ∈ ps2) := by
  constructor
  · intro hf hd
    subst hd
    unfold alarm_arm async_alarm_disarm armDecision disarmDecision
    simp [hf]
  · intro ht
    have hne : code ≠ PyCode.pyNone := by
      rintro rfl
      simp [PyCode.truthy] at ht
    refine ⟨?_, ?_, ?_⟩
    · intro d2
      unfold armDecision disarmDecision
      simp [ht]
    · unfold armDecision
      simp only [ht, if_true, if_neg hne]
      exact ⟨_, rfl, by simp⟩
    · unfold disarmDecision
      simp only [ht, if_true, if_neg hne]
      exact ⟨_, rfl, by simp⟩

/-- C3, witness: an empty call-supplied code with no default yields
the local missing-code outcome with no network interaction. -/
theorem c3_witness :
    (PyCode.pyStr "").truthy = false ∧
    alarm_arm idCore zeroCipher "AWAY" (PyCode.pyStr "") PyCode.pyNone
        (HttpOutcome.resp 200 "") =
      (Except.ok ArmOutcome.missingCode, [LogEntry.armCodeMissing], []) :=
  ⟨by decide,
    ((c3_missing_code_no_network idCore zeroCipher "AWAY" (PyCode.pyStr "")
      PyCode.pyNone (HttpOutcome.resp 200 "") (HttpOutcome.resp 200 "")).1
      (by decide) rfl).2.2.1⟩

/-- C10.  Code resolution tests the call-supplied code for truthiness,
not presence: any falsy call code behaves exactly like an absent one
and falls back to the configured default, and the resolved code is
sent in string form in the `ucode` field. -/
theorem c10_falsy_code_falls_back (armName : String) (code dcode : PyCode)
    (h : code.truthy = false) :
    armDecision armName code dcode = armDecision armName PyCode.pyNone dcode ∧
    disarmDecision code dcode = disarmDecision PyCode.pyNone dcode ∧
    (∀ ps, armDecision armName code dcode = some ps →
      ("ucode", dcode.toPyString) ∈ ps) ∧
    (∀ ps, disarmDecision code dcode = some ps →
      ("ucode", dcode.toPyString) ∈ ps) := by
  refine ⟨?_, ?_, ?_, ?_⟩
  · unfold armDecision
    rw [h]
    simp [PyCode.truthy]
  · unfold disarmDecision
    rw [h]
    simp [PyCode.truthy]
  · intro ps hps
    unfold armDecision at hps
    rw [h] at hps
    simp only [Bool.false_eq_true, if_false] at hps
    by_cases hd : dcode = PyCode.pyNone
    · simp [hd] at hps
    · rw [if_neg hd] at hps
      cases hps
      simp
  · intro ps hps
    unfold disarmDecision at hps
    rw [h] at hps
    simp only [Bool.false_eq_true, if_false] at hps
    by_cases hd : dcode = PyCode.pyNone
    · simp [hd] at hps
    · rw [if_neg hd] at hps
      cases hps
      simp

/-- C10, witness: the empty string code falls back to the configured
integer default, which is sent as its string form. -/
theorem c10_witness :
    (PyCode.pyStr "").truthy = false ∧
    armDecision "STAY" (PyCode.pyStr "") (PyCode.pyInt 1234) =
      armDecision "STAY" PyCode.pyNone (PyCode.pyInt 1234) ∧
    ("ucode", (PyCode.pyInt 1234).toPyString) ∈
      [("arming", "STAY"), ("pID", "1"),
        ("ucode", (PyCode.pyInt 1234).toPyString), ("operation", "set")] :=
  have h := c10_falsy_code_falls_back "STAY" (PyCode.pyStr "") (PyCode.pyInt 1234) (by decide)
  ⟨by decide, h.1, h.2.2.1 _ (by rfl)⟩

/-- C4, amended.  On a non-200 HTTP response the status poll resolves
to the unavailable state with a logged diagnostic, but a
connection-level failure (refused, timeout, DNS) is not caught
anywhere: the exception `requests.post` raises propagates out of
`async_update` past the controller boundary. -/
theorem c4_transport_failures (core : AESCore) (c : Cipher) (status : Nat) (body : String)
    (hc : aesNewOk c = true) (hs : status ≠ 200) :
    async_update core c (HttpOutcome.resp status body) =
      (Except.ok AlarmState.unavailable,
        [LogEntry.httpError "/GetSecurityStatus" status, LogEntry.updateFailed]) ∧
    async_update core c HttpOutcome.connError =
      (Except.error PyError.connectionError, []) := by
  have hb : encrypt_params core c [("operation", "get")] =
      .ok (b2a_base64 (cbcEncBytes core c (pad16 (urlencodeBytes [("operation", "get")])))) := by
    simp [encrypt_params, hc]
  constructor
  · unfold async_update post_request
    rw [hb]
    simp [hs]
  · unfold async_update post_request
    rw [hb]

/-- C4, counterexample.  A connection-level failure makes the status
poll raise the connection error instead of resolving to the
unavailable state, so the claim that `get_status` never raises past
the controller boundary on transport failure is false. -/
theorem c4_counterexample :
    (async_update idCore zeroCipher HttpOutcome.connError).1 =
      Except.error PyError.connectionError := rfl

/-- C4, witness for the amended theorem at a concrete 500 response. -/
theorem c4_witness :
    async_update idCore zeroCipher (HttpOutcome.resp 500 "boom") =
      (Except.ok AlarmState.unavailable,
        [LogEntry.httpError "/GetSecurityStatus" 500, LogEntry.updateFailed]) :=
  (c4_transport_failures idCore zeroCipher 500 "boom" (by decide) (by decide)).1

/-- C5, amended.  On a non-200 status the transport helper logs the
status code once and returns `None` without retrying; the arm
operation then treats the falsy response as a silent no-op: it returns
normally, surfaces no typed error to its caller, and performs no
settle or refresh action. -/
theorem c5_non200_silent_noop (core : AESCore) (c : Cipher) (armName : String)
    (code dcode : PyCode) (ps : List (String × String)) (status : Nat) (body : String)
    (hc : aesNewOk c = true) (hs : status ≠ 200)
    (hdec : armDecision armName code dcode = some ps) :
    alarm_arm core c armName code dcode (HttpOutcome.resp status body) =
      (Except.ok ArmOutcome.noop,
        [LogEntry.httpError "/AdvancedSecurity/ArmWithCode" status], []) := by
  have hb : encrypt_params core c ps =
      .ok (b2a_base64 (cbcEncBytes core c (pad16 (urlencodeBytes ps)))) := by
    simp [encrypt_params, hc]
  unfold alarm_arm
  rw [hdec]
  unfold post_request
  simp [hb, hs]

/-- C5, counterexample.  With a resolvable code and an HTTP 500
response, the arm call returns the ok no-op outcome: no error value of
any kind — in particular no `Http(500)` transport error — reaches its
caller, so the claim that the typed error is surfaced is false. -/
theorem c5_counterexample :
    (alarm_arm idCore zeroCipher "AWAY" (PyCode.pyStr "1234") PyCode.pyNone
        (HttpOutcome.resp 500 "")).1 = Except.ok ArmOutcome.noop ∧
    ∀ e : PyError, (alarm_arm idCore zeroCipher "AWAY" (PyCode.pyStr "1234") PyCode.pyNone
        (HttpOutcome.resp 500 "")).1 ≠ Except.error e := by
  refine ⟨rfl, ?_⟩
  intro e h
  rw [show (alarm_arm idCore zeroCipher "AWAY" (PyCode.pyStr "1234") PyCode.pyNone
      (HttpOutcome.resp 500 "")).1 = Except.ok ArmOutcome.noop from rfl] at h
  exact Except.noConfusion h

/-- C5, witness for the amended theorem at a concrete 500 response. -/
theorem c5_witness :
    alarm_arm idCore zeroCipher "AWAY" (PyCode.pyStr "1234") PyCode.pyNone
        (HttpOutcome.resp 500 "oops") =
      (Except.ok ArmOutcome.noop,
        [LogEntry.httpError "/AdvancedSecurity/ArmWithCode" 500], []) :=
  c5_non200_silent_noop idCore zeroCipher "AWAY" (PyCode.pyStr "1234") PyCode.pyNone
    [("arming", "AWAY"), ("pID", "1"), ("ucode", "1234"), ("operation", "set")]
    500 "oops" (by decide) (by decide) (by rfl)

/-- C9.  Whenever an arm or disarm command is acknowledged (the
decoded response is truthy), the controller sleeps exactly two
seconds and only then schedules the next state refresh; the action
trace is exactly that sleep followed by the scheduling. -/
theorem c9_settle_delay (core : AESCore) (c : Cipher) (armName : String)
    (code dcode : PyCode) (outcome1 outcome2 : HttpOutcome) :
    ((alarm_arm core c armName code dcode outcome1).1 = Except.ok ArmOutcome.acknowledged →
      (alarm_arm core c armName code dcode outcome1).2.2 =
        [PanelAction.sleepSecs 2, PanelAction.scheduleUpdate]) ∧
    ((async_alarm_disarm core c code dcode outcome2).1 = Except.ok ArmOutcome.acknowledged →
      (async_alarm_disarm core c code dcode outcome2).2.2 =
        [PanelAction.sleepSecs 2, PanelAction.scheduleUpdate]) := by
  constructor
  · intro h
    unfold alarm_arm at h ⊢
    rcases hd : armDecision armName code dcode with _ | ps
    · simp [hd] at h
    · rcases hp : post_request core c "/AdvancedSecurity/ArmWithCode" ps outcome1
        with ⟨res, logs⟩
      rcases res with e | oj
      · simp [hd, hp] at h
      · rcases oj with _ | j
        · simp [hd, hp] at h
        · by_cases hj : j.truthy = true
          · simp [hd, hp, hj]
          · simp [hd, hp, hj] at h
  · intro h
    unfold async_alarm_disarm at h ⊢
    rcases hd : disarmDecision code dcode with _ | ps
    · simp [hd] at h
    · rcases hp : post_request core c "/AdvancedSecurity/DisarmWithCode" ps outcome2
        with ⟨res, logs⟩
      rcases res with e | oj
      · simp [hd, hp] at h
      · rcases oj with _ | j
        · simp [hd, hp] at h
        · by_cases hj : j.truthy = true
          · simp [hd, hp, hj]
          · simp [hd, hp, hj] at h

/-- C9, witness: a concrete acknowledged arm command produces exactly
the two-second sleep followed by the scheduled refresh. -/
theorem c9_witness :
    (alarm_arm idCore zeroCipher "AWAY" (PyCode.pyStr "1234") PyCode.pyNone
        (HttpOutcome.resp 200 ackBody)).1 = Except.ok ArmOutcome.acknowledged ∧
    (alarm_arm idCore zeroCipher "AWAY" (PyCode.pyStr "1234") PyCode.pyNone
        (HttpOutcome.resp 200 ackBody)).2.2 =
      [PanelAction.sleepSecs 2, PanelAction.scheduleUpdate] :=
  ⟨rfl, (c9_settle_delay idCore zeroCipher "AWAY" (PyCode.pyStr "1234") PyCode.pyNone
      (HttpOutcome.resp 200 ackBody) (HttpOutcome.resp 200 ackBody)).1 rfl⟩

/-- C8, amended.  Construction of the cipher configuration only
hex-decodes its arguments and performs no length validation at all: it
succeeds for any hex strings, whatever the decoded lengths.  The
length requirement is enforced later, when `AES.new` runs inside
encryption or decryption: material outside the accepted sizes (16, 24
or 32 key bytes and exactly 16 iv bytes) makes those operations fail,
and conforming material makes encryption succeed. -/
theorem c8_cipher_init_no_length_check (key iv : String) (kb ib : List Nat)
    (hk : a2b_hex key = some kb) (hi : a2b_hex iv = some ib) :
    Cipher.init key iv = some ⟨kb, ib⟩ ∧
    (∀ core params, aesNewOk ⟨kb, ib⟩ = false →
      encrypt_params core ⟨kb, ib⟩ params = Except.error CodecErr.keyIv) ∧
    (∀ core blob, aesNewOk ⟨kb, ib⟩ = false →
      decrypt_params core ⟨kb, ib⟩ blob = Except.error CodecErr.keyIv) ∧
    (∀ core params, aesNewOk ⟨kb, ib⟩ = true →
      ∃ blob, encrypt_params core ⟨kb, ib⟩ params = Except.ok blob) := by
  refine ⟨?_, ?_, ?_, ?_⟩
  · unfold Cipher.init
    rw [hk, hi]
  · intro core params h
    simp [encrypt_params, h]
  · intro core blob h
    simp [decrypt_params, decryptRaw, h]
  · intro core params h
    simp [encrypt_params, h]

/-- C8, counterexample.  Constructing the cipher with a one-byte key
(hex `00`) succeeds even though the key is not 32 bytes, so the claim
that construction fails for wrong lengths is false. -/
theorem c8_counterexample :
    Cipher.init "00" "00000000000000000000000000000000" =
      some ⟨[0], List.replicate 16 0⟩ ∧ (1 : Nat) ≠ 32 := by
  constructor
  · decide
  · decide

/-- C8, witness: the one-byte key passes construction and then makes
encryption fail at the AES validity check. -/
theorem c8_witness :
    Cipher.init "00" "00000000000000000000000000000000" =
      some ⟨[0], List.replicate 16 0⟩ ∧
    encrypt_params idCore ⟨[0], List.replicate 16 0⟩ [("operation", "get")] =
      Except.error CodecErr.keyIv :=
  have h := c8_cipher_init_no_length_check "00" "00000000000000000000000000000000"
    [0] (List.replicate 16 0) (by decide) (by decide)
  ⟨h.1, h.2.1 idCore [("operation", "get")] (by decide)⟩
